import Mathlib

/-
Verification development for the Subject-Range Indexing and Random-Access
Retrieval Engine of the mimic-project repository.

The definitions below are a shallow embedding of the Python source:
  * `src/utils/analysis/filtering.py`        (class `Filter`, index builder)
  * `src/utils/analysis/filters/file_filter.py`   (class `File_Filter`, query engine)
  * `src/utils/analysis/filters/subject_filter.py` (class `Subject_Filter`, facade)

Files are modelled at the level of their uncompressed text.  A gzip dataset
is a header line plus a list of data lines, each line carrying its trailing
newline, exactly as Python's line iteration over the (indexed-gzip wrapped)
file yields them.  Byte offsets are the UTF-8 byte counts of that text,
matching `len(line)` on the `bytes` values the source manipulates.
-/

namespace Mimic

/-! ## Byte lengths of text

The source measures lines with `len(line)` on raw bytes.  We measure the
UTF-8 encoding of the modelled strings. -/

/-- Number of bytes of the UTF-8 encoding of one character. -/
def charSize (c : Char) : Nat :=
  if c.val ≤ 0x7F then 1
  else if c.val ≤ 0x7FF then 2
  else if c.val ≤ 0xFFFF then 3
  else 4

/-- Byte length of the UTF-8 encoding of a string; `len(s)` on the encoded
bytes in the source. -/
def byteLen (s : String) : Nat :=
  (s.data.map charSize).sum

theorem charSize_pos (c : Char) : 1 ≤ charSize c := by
  unfold charSize
  split
  · exact Nat.le_refl 1
  · split
    · omega
    · split <;> omega

theorem byteLen_eq_zero_iff (s : String) : byteLen s = 0 ↔ s = "" := by
  constructor
  · intro h
    cases s with
    | mk data =>
      cases data with
      | nil => rfl
      | cons c cs =>
        exfalso
        have hc := charSize_pos c
        simp [byteLen] at h
        omega
  · intro h
    subst h
    rfl

/-! ## Python-style helpers

Splitting, stripping and integer parsing are implemented over character
lists (structural recursion) with the semantics of the Python operations
the source uses: `bytes.split`, `str.strip`, `int()`. -/

/-- Python `split(sep)`: cut at every separator; no separator yields one
chunk, the empty input yields one empty chunk. -/
def splitChar (sep : Char) : List Char → List (List Char)
  | [] => [[]]
  | c :: cs =>
    if c = sep then [] :: splitChar sep cs
    else
      match splitChar sep cs with
      | [] => [[c]]
      | g :: gs => (c :: g) :: gs

/-- Strip ASCII whitespace from both ends, as `int()` tolerates around a
numeral. -/
def trimChars (l : List Char) : List Char :=
  ((l.dropWhile Char.isWhitespace).reverse.dropWhile Char.isWhitespace).reverse

/-- Value of a nonempty all-digit run, accumulated left to right. -/
def digitsValAux (acc : Nat) : List Char → Option Nat
  | [] => some acc
  | c :: cs => if c.isDigit then digitsValAux (acc * 10 + (c.toNat - 48)) cs else none

/-- Value of a nonempty all-digit run; `none` on the empty list or any
non-digit. -/
def digitsVal : List Char → Option Nat
  | [] => none
  | l => digitsValAux 0 l

/-- Decimal integer literal with optional sign. -/
def parseInt? : List Char → Option Int
  | '-' :: rest => (digitsVal rest).map (fun n => -(n : Int))
  | '+' :: rest => (digitsVal rest).map (fun n => (n : Int))
  | l => (digitsVal l).map (fun n => (n : Int))

/-- Python `int(s)` on a decimal field: whitespace around the signed
numeral is tolerated, anything else fails (`ValueError` = `none`). -/
def pyInt? (s : String) : Option Int :=
  parseInt? (trimChars s.data)

/-- Python `s.strip('"')`: remove leading and trailing quote characters. -/
def stripQuoteChars (s : String) : String :=
  String.mk (((s.data.dropWhile (fun c => c = '"')).reverse.dropWhile
      (fun c => c = '"')).reverse)

/-- Parse the sort-key field as the source does
(`filtering.py` lines 131-134): try `int(sid_bytes)` first, and on
`ValueError` retry after stripping quote characters; a second failure
propagates as an exception (`none`). -/
def pyParseSid (field : String) : Option Int :=
  match pyInt? field with
  | some v => some v
  | none => pyInt? (stripQuoteChars field)

/-- First index of `p` in a list of column names, as Python's `list.index` /
`in` on `df.columns` (first occurrence wins). -/
def colIdx? (p : String) : List String → Option Nat
  | [] => none
  | c :: cs => if c = p then some 0 else (colIdx? p cs).map (· + 1)

/-- The comma-separated fields of a CSV line. -/
def lineFields (line : String) : List String :=
  (splitChar ',' line.data).map String.mk

/-- Field number `colIdx` of a CSV line, split on commas
(`line.split(b',', subject_col_idx + 1)` followed by `parts[subject_col_idx]`;
for that index the bounded split agrees with the full split). -/
def lineField (colIdx : Nat) (line : String) : Option String :=
  (lineFields line).get? colIdx

/-- Sort-key value of one data line: extract the field and parse it.
`none` when the field is missing (line skipped) or unparseable (exception). -/
def lineSid (colIdx : Nat) (line : String) : Option Int :=
  (lineField colIdx line).bind pyParseSid

/-- Columns of the header line: `header_str.strip().split(',')`
(`filtering.py` line 113). -/
def headerCols (hdr : String) : List String :=
  (splitChar ',' (trimChars hdr.data)).map String.mk

/-! ## The dataset file and the builder's scan

`Filter.generate_byte_index` (`filtering.py` lines 63-181) iterates the
uncompressed lines once, tracking the byte offset and the current subject,
and records a half-open byte range for every maximal run of equal
sort-key values in a dict `offsets`. -/

/-- A gzip CSV dataset, seen through its uncompressed text: the header line
and the data lines, each string carrying its trailing newline. -/
structure DataFile where
  header : String
  lines : List String
deriving DecidableEq, Repr

/-- State of the scan loop: the `offsets` dict (insertion-ordered key/range
associations), `current_subject`, `subject_start_offset`, `current_offset`. -/
structure ScanState where
  offsets : List (Int × Nat × Nat)
  currentSubject : Option Int
  subjectStart : Nat
  currentOffset : Nat
deriving DecidableEq, Repr

/-- Python dict assignment `offsets[k] = v`: replace in place if the key is
present, append otherwise. -/
def dictInsert (k : Int) (v : Nat × Nat) :
    List (Int × Nat × Nat) → List (Int × Nat × Nat)
  | [] => [(k, v.1, v.2)]
  | e :: rest => if e.1 = k then (k, v.1, v.2) :: rest else e :: dictInsert k v rest

/-- Python dict lookup `offsets[k]` / `k in offsets`. -/
def dictLookup (k : Int) : List (Int × Nat × Nat) → Option (Nat × Nat)
  | [] => none
  | e :: rest => if e.1 = k then some (e.2.1, e.2.2) else dictLookup k rest

/-- Loop body of the scan on an already-parsed line of `len` bytes whose
sort-key value is `sid` (`filtering.py` lines 136-147): on a subject
transition flush the previous subject's range and open a new run, then
advance the offset past the line. -/
def pureStep (st : ScanState) (len : Nat) (sid : Int) : ScanState :=
  if st.currentSubject = some sid then
    { st with currentOffset := st.currentOffset + len }
  else
    { offsets :=
        match st.currentSubject with
        | some prev => dictInsert prev (st.subjectStart, st.currentOffset) st.offsets
        | none => st.offsets,
      currentSubject := some sid,
      subjectStart := st.currentOffset,
      currentOffset := st.currentOffset + len }

/-- One iteration of `for line in f` (`filtering.py` lines 123-147): a line
whose split has no field `colIdx` only advances the offset; a field that
fails to parse as an integer raises (`none`); otherwise the parsed step
runs. -/
def scanStep (colIdx : Nat) (st : ScanState) (line : String) : Option ScanState :=
  match lineField colIdx line with
  | none => some { st with currentOffset := st.currentOffset + byteLen line }
  | some field =>
    match pyParseSid field with
    | none => none
    | some sid => some (pureStep st (byteLen line) sid)

/-- The whole scan loop over the data lines. -/
def scanLines (colIdx : Nat) : ScanState → List String → Option ScanState
  | st, [] => some st
  | st, l :: ls =>
    match scanStep colIdx st l with
    | none => none
    | some st' => scanLines colIdx st' ls

/-- Same loop, additionally counting how many data lines the builder reads
from the file.  The loop in the source has no early exit besides an
exception, so a successful scan reads every line. -/
def scanLinesT (colIdx : Nat) : ScanState → List String → Option ScanState × Nat
  | st, [] => (some st, 0)
  | st, l :: ls =>
    match scanStep colIdx st l with
    | none => (none, 1)
    | some st' =>
      let r := scanLinesT colIdx st' ls
      (r.1, r.2 + 1)

/-- Flush of the final subject after the loop (`filtering.py` lines 149-151). -/
def finalizeScan (st : ScanState) : List (Int × Nat × Nat) :=
  match st.currentSubject with
  | some prev => dictInsert prev (st.subjectStart, st.currentOffset) st.offsets
  | none => st.offsets

/-- The scan phase of `generate_byte_index`: discard the header (remembering
the offset after it), locate the sort column in the header, then run the
loop and flush.  `none` models the early `return` when the sort column is
missing, or the uncaught `ValueError` of a bad sort-key field. -/
def generate_offsets (f : DataFile) (sortCol : String) :
    Option (List (Int × Nat × Nat)) :=
  match colIdx? sortCol (headerCols f.header) with
  | none => none
  | some idx =>
    let O0 := byteLen f.header
    (scanLines idx ⟨[], none, O0, O0⟩ f.lines).map finalizeScan

/-! ## The Subject-Range Table

The lookup CSV (`icu_unique_subject_ids.csv`) is modelled as a dataframe:
named integer columns over a list of rows.  `generate_byte_index` loads it,
recomputes the two byte-index columns for the current dataset from the
scanned offsets, assigns them (`subjects_df[col] = vals`, which overwrites
an existing column in place and appends a new one at the end), and writes
the frame back in its existing row order (`filtering.py` lines 155-176). -/

/-- Row cell access by position (`df.iloc`-style); rows of a well-formed
table are as long as the column list, so the default is never used there. -/
def getIdx (r : List Int) (j : Nat) : Int :=
  match r, j with
  | [], _ => 0
  | x :: _, 0 => x
  | _ :: tl, j + 1 => getIdx tl j

/-- Replace the cell at position `j` of a row (out-of-range is a no-op). -/
def setIdx (r : List Int) (j : Nat) (v : Int) : List Int :=
  match r, j with
  | [], _ => []
  | _ :: tl, 0 => v :: tl
  | hd :: tl, j + 1 => hd :: setIdx tl j v

/-- The persisted lookup CSV: ordered column names and rows of integers. -/
structure Table where
  columns : List String
  rows : List (List Int)
deriving DecidableEq, Repr

/-- Every row has one cell per column. -/
def Table.WF (t : Table) : Prop :=
  ∀ r ∈ t.rows, r.length = t.columns.length

instance (t : Table) : Decidable t.WF :=
  inferInstanceAs (Decidable (∀ r ∈ t.rows, r.length = t.columns.length))

/-- Values of a named column, top to bottom (`df[name]`); `[]` if absent. -/
def getColumn (t : Table) (name : String) : List Int :=
  match colIdx? name t.columns with
  | some j => t.rows.map (fun r => getIdx r j)
  | none => []

/-- Column assignment `df[name] = vals`: overwrite in place when the column
exists, append a new last column otherwise. -/
def setColumn (t : Table) (name : String) (vals : List Int) : Table :=
  match colIdx? name t.columns with
  | some j => ⟨t.columns, List.zipWith (fun r v => setIdx r j v) t.rows vals⟩
  | none => ⟨t.columns ++ [name], List.zipWith (fun r v => r ++ [v]) t.rows vals⟩

/-- Byte-index start values for the subjects already listed in the table
(`filtering.py` lines 159-171): a subject found in `offsets` contributes its
recorded start, every other subject the sentinel `-1`. -/
def startVals (sids : List Int) (offs : List (Int × Nat × Nat)) : List Int :=
  sids.map (fun sid =>
    match dictLookup sid offs with
    | some p => (p.1 : Int)
    | none => -1)

/-- Byte-index end values, same traversal as `startVals`. -/
def endVals (sids : List Int) (offs : List (Int × Nat × Nat)) : List Int :=
  sids.map (fun sid =>
    match dictLookup sid offs with
    | some p => (p.2 : Int)
    | none => -1)

/-- Update phase of `generate_byte_index` (`filtering.py` lines 155-176):
assign the `{file_id}_byteidx_start` and `{file_id}_byteidx_end` columns
computed over the existing `subject_id` column. -/
def update_byte_index (t : Table) (fileId : String)
    (offs : List (Int × Nat × Nat)) : Table :=
  let sids := getColumn t "subject_id"
  setColumn (setColumn t (fileId ++ "_byteidx_start") (startVals sids offs))
    (fileId ++ "_byteidx_end") (endVals sids offs)

/-- End-to-end model of `Filter.generate_byte_index`: check the lookup CSV
has a `subject_id` column, scan the dataset, and rewrite the table.
`none` models every early `return` and uncaught exception, in which case
the lookup CSV is left untouched. -/
def generate_byte_index (f : DataFile) (sortCol fileId : String) (t : Table) :
    Option Table :=
  if "subject_id" ∈ t.columns then
    (generate_offsets f sortCol).map (update_byte_index t fileId)
  else none

/-- The same run, also reporting how many data lines the scan loop read
from the gzip stream (0 would mean the scan was skipped; the source always
re-scans). -/
def generate_byte_index_run (f : DataFile) (sortCol fileId : String)
    (t : Table) : Option Table × Nat :=
  if "subject_id" ∈ t.columns then
    match colIdx? sortCol (headerCols f.header) with
    | none => (none, 0)
    | some idx =>
      let O0 := byteLen f.header
      let r := scanLinesT idx ⟨[], none, O0, O0⟩ f.lines
      ((r.1.map finalizeScan).map (update_byte_index t fileId), r.2)
  else (none, 0)

/-! ## The single-dataset query engine

`File_Filter.search_subject` (`file_filter.py` lines 86-168) resolves the
subject's byte range in the lookup table, seeks and reads exactly that byte
span of the uncompressed stream, parses it as a header-less CSV with the
dataset's header for column names, and verifies the first parsed row. -/

/-- Skip the first `n` bytes of a character list (`f.seek(n)`); offsets are
expected to fall on character boundaries. -/
def dropBytes : Nat → List Char → List Char
  | _, [] => []
  | n, c :: cs =>
    if n = 0 then c :: cs
    else if charSize c ≤ n then dropBytes (n - charSize c) cs
    else cs

/-- Take the next `n` bytes of a character list (`f.read(n)`). -/
def takeBytes : Nat → List Char → List Char
  | _, [] => []
  | n, c :: cs =>
    if charSize c ≤ n ∧ n ≠ 0 then c :: takeBytes (n - charSize c) cs
    else []

/-- `f.seek(start); f.read(len)` on the uncompressed stream. -/
def byteSlice (s : String) (start len : Nat) : String :=
  String.mk (takeBytes len (dropBytes start s.data))

/-- Parse the read bytes as CSV rows of fields
(`pd.read_csv(BytesIO(data), names=self.header, header=None)`); blank
lines, including the chunk after the final newline, are skipped. -/
def parseRows (data : String) : List (List String) :=
  ((splitChar '\n' data.data).filter (fun cs => !cs.isEmpty)).map
    (fun cs => (splitChar ',' cs).map String.mk)

/-- Field `j` of a parsed row (`result_df.iloc[0, j]`); a field absent from
the parsed data is a pandas `NaN`, which `int()` rejects, so the empty
string (unparseable) models it. -/
def getField (r : List String) (j : Nat) : String :=
  match r, j with
  | [], _ => ""
  | x :: _, 0 => x
  | _ :: tl, j + 1 => getField tl j

/-- Exceptions `search_subject` can raise, by the `raise` sites of
`file_filter.py` (lines 100, 105, 110, 168). -/
inductive SearchError
  | importError
  | fileNotFound
  | valueError
  | runtimeError
deriving DecidableEq, Repr

/-- A returned dataframe: its column names and its rows of string fields. -/
structure Batch where
  cols : List String
  rows : List (List String)
deriving DecidableEq, Repr

/-- The `subject_id` index of the loaded lookup dataframe
(`self.lookup_df.index`). -/
def tableIndex (t : Table) : List Int :=
  getColumn t "subject_id"

/-- Cell of the lookup dataframe at row `sid`, column `col`
(`self.lookup_df.loc[sid][col]`): first row whose `subject_id` equals
`sid`. -/
def tableGet (t : Table) (sid : Int) (col : String) : Option Int :=
  match colIdx? "subject_id" t.columns, colIdx? col t.columns with
  | some js, some jc =>
    (t.rows.find? (fun r => getIdx r js == sid)).map (fun r => getIdx r jc)
  | _, _ => none

/-- State of one `File_Filter`: its dataset id, the dataset's header (column
names read at init), the position of the sort column in that header, the
uncompressed text of the dataset file, whether `indexed_gzip` imported, and
the loaded lookup table (`None` when the CSV was absent; the loader only
keeps a frame that has a `subject_id` column). -/
structure FileFilter where
  fileId : String
  header : List String
  sortColIdx : Nat
  content : String
  hasIndexedGzip : Bool
  lookup : Option Table
deriving Repr

/-- Read the resolved byte range and verify it, `file_filter.py` lines
130-168: read `[start, end)`, parse it (an empty read makes `read_csv`
raise, caught and re-raised as a fatal runtime error), and if the first
parsed row's sort-column value differs from the queried subject, log an
error and return an EMPTY dataframe with the dataset's header. -/
def readAndVerify (ff : FileFilter) (subjectId startByte endByte : Int) :
    Except SearchError Batch :=
  let data := byteSlice ff.content startByte.toNat (endByte - startByte).toNat
  if data = "" then .error .runtimeError
  else
    match parseRows data with
    | [] => .ok ⟨ff.header, []⟩
    | first :: rest =>
      let mismatch :=
        match pyInt? (getField first ff.sortColIdx) with
        | some v => v != subjectId
        | none => true
      if mismatch then .ok ⟨ff.header, []⟩
      else .ok ⟨ff.header, first :: rest⟩

/-- Model of `File_Filter.search_subject subject_id`: the guard chain of
`file_filter.py` lines 97-124 followed by the read-and-verify phase. -/
def search_subject (ff : FileFilter) (subjectId : Int) :
    Except SearchError Batch :=
  let startCol := ff.fileId ++ "_byteidx_start"
  let endCol := ff.fileId ++ "_byteidx_end"
  if ff.hasIndexedGzip = false then .error .importError
  else
    match ff.lookup with
    | none => .error .fileNotFound
    | some lk =>
      if startCol ∉ lk.columns ∨ endCol ∉ lk.columns then .error .valueError
      else if subjectId ∉ tableIndex lk then .ok ⟨ff.header, []⟩
      else
        match tableGet lk subjectId startCol, tableGet lk subjectId endCol with
        | some startByte, some endByte =>
          if startByte = -1 ∨ endByte = -1 then .ok ⟨ff.header, []⟩
          else readAndVerify ff subjectId startByte endByte
        | _, _ => .error .runtimeError

/-! ## The multi-dataset facade

`Subject_Filter.get_all_subject_data` (`subject_filter.py` lines 24-60)
iterates the per-dataset filters; an uninitialized filter yields `None`, a
fetch that raises yields an empty `pd.DataFrame()` (no columns), and every
other dataset still gets its own fetch result. -/

/-- Model of `Subject_Filter.get_all_subject_data`: the per-dataset engines
are given by their identifier and, when initialization succeeded, their
`search_subject` behaviour as a function of the queried subject. -/
def get_all_subject_data
    (filters : List (String × Option (Int → Except SearchError Batch)))
    (subjectId : Int) : List (String × Option Batch) :=
  filters.map (fun fi =>
    match fi.2 with
    | some search =>
      match search subjectId with
      | .ok df => (fi.1, some df)
      | .error _ => (fi.1, some ⟨[], []⟩)
    | none => (fi.1, none))

/-! ## Specification-side notions

Predicates used to state the claims: parsed views of the data lines, the
partition ("chain") shape of a range list, homogeneity of a range, and the
invariant carried through the scan loop. -/

/-- The scan-loop body on pre-parsed `(byte length, sort-key)` pairs,
iterated; `scanLines` agrees with it on lines that all parse. -/
def pureScan : ScanState → List (Nat × Int) → ScanState
  | st, [] => st
  | st, p :: ps => pureScan (pureStep st p.1 p.2) ps

/-- Total byte length of a list of parsed lines. -/
def bytesOf (ps : List (Nat × Int)) : Nat :=
  (ps.map Prod.fst).sum

/-- Sort-key values of a list of parsed lines, in file order. -/
def sidsOf (ps : List (Nat × Int)) : List Int :=
  ps.map Prod.snd

/-- Keys of the `offsets` dict, in insertion order. -/
def dictKeys (offs : List (Int × Nat × Nat)) : List Int :=
  offs.map Prod.fst

/-- Line `line` has byte length `p.1` and its sort-key field parses to
`p.2`. -/
def LineVal (colIdx : Nat) (line : String) (p : Nat × Int) : Prop :=
  byteLen line = p.1 ∧ lineSid colIdx line = some p.2

/-- Every data line pairs with its parsed `(length, sort-key)` view. -/
def Parsed (colIdx : Nat) (lines : List String) (ps : List (Nat × Int)) : Prop :=
  List.Forall₂ (LineVal colIdx) lines ps

/-- A list of ranges `(sid, start, stop)` tiles `[a, b)` in order: the first
starts at `a`, each range starts where the previous one stopped, and the
last stops at `b`. -/
def isChain : Nat → Nat → List (Int × Nat × Nat) → Prop
  | a, b, [] => a = b
  | a, b, r :: rest => r.2.1 = a ∧ isChain r.2.2 b rest

/-- Range `r` covers a contiguous run of the parsed lines `ps` whose bytes
are exactly `[r.start, r.stop)` and whose sort keys all equal `r.sid`. -/
def RangeOK (O0 : Nat) (ps : List (Nat × Int)) (r : Int × Nat × Nat) : Prop :=
  ∃ pre mid post, ps = pre ++ mid ++ post ∧
    O0 + bytesOf pre = r.2.1 ∧ r.2.1 + bytesOf mid = r.2.2 ∧
    ∀ q ∈ mid, q.2 = r.1

/-- Loop invariant of the scan after processing the parsed lines `done`,
the last of which had sort key `c`. -/
structure ScanInv (O0 : Nat) (done : List (Nat × Int)) (c : Int)
    (st : ScanState) : Prop where
  cur : st.currentSubject = some c
  off : st.currentOffset = O0 + bytesOf done
  openRun : ∃ pre mid, done = pre ++ mid ∧ O0 + bytesOf pre = st.subjectStart ∧
    ∀ q ∈ mid, q.2 = c
  chain : isChain O0 st.subjectStart st.offsets
  ranges : ∀ r ∈ st.offsets, RangeOK O0 done r
  keysLt : ∀ k ∈ dictKeys st.offsets, k < c

/-- Byte offset at which data line `i` starts in the uncompressed stream. -/
def lineOffset (O0 : Nat) (lines : List String) (i : Nat) : Nat :=
  O0 + ((lines.take i).map byteLen).sum

/-! ## Concrete instances

The minimal dataset of the specification's scenario E1 and small lookup
tables, used to instantiate the hypotheses of the claim theorems. -/

/-- Scenario E1 dataset `mini`: header plus three data lines. -/
def fE1 : DataFile := ⟨"subject_id,val\n", ["10,a\n", "10,b\n", "20,c\n"]⟩

/-- Parsed view of `fE1`'s data lines. -/
def psE1 : List (Nat × Int) := [(5, 10), (5, 10), (5, 20)]

/-- Ranges the builder discovers in `fE1`. -/
def rangesE1 : List (Int × Nat × Nat) := [(10, 15, 25), (20, 25, 30)]

/-- A lookup table holding subjects 10, 20 and 99. -/
def tE1 : Table := ⟨["subject_id"], [[10], [20], [99]]⟩

/-- Result of building `fE1`'s byte index over `tE1`. -/
def tE1' : Table :=
  ⟨["subject_id", "mini_byteidx_start", "mini_byteidx_end"],
    [[10, 15, 25], [20, 25, 30], [99, -1, -1]]⟩

/-- A lookup table listing only subject 10. -/
def tSolo : Table := ⟨["subject_id"], [[10]]⟩

/-- Result of building `fE1`'s byte index over `tSolo`: subject 20 was
discovered in the file but gets no row. -/
def tSolo' : Table :=
  ⟨["subject_id", "mini_byteidx_start", "mini_byteidx_end"], [[10, 15, 25]]⟩

/-- A lookup table whose rows are not sorted by `subject_id`. -/
def tUnsorted : Table := ⟨["subject_id"], [[20], [10]]⟩

/-- Result of building `fE1`'s byte index over `tUnsorted`: still unsorted. -/
def tUnsorted' : Table :=
  ⟨["subject_id", "mini_byteidx_start", "mini_byteidx_end"],
    [[20, 25, 30], [10, 15, 25]]⟩

/-- An empty dataset: header line only. -/
def fEmpty : DataFile := ⟨"subject_id,val\n", []⟩

/-- Result of building `fEmpty`'s byte index over `tE1`: all sentinels. -/
def tEmpty' : Table :=
  ⟨["subject_id", "mini_byteidx_start", "mini_byteidx_end"],
    [[10, -1, -1], [20, -1, -1], [99, -1, -1]]⟩

/-- A lookup table with an extra non-index data column `age`. -/
def tExtra : Table := ⟨["subject_id", "age"], [[10, 77], [20, 88]]⟩

/-- Result of building `fE1`'s byte index over `tExtra`. -/
def tExtra' : Table :=
  ⟨["subject_id", "age", "mini_byteidx_start", "mini_byteidx_end"],
    [[10, 77, 15, 25], [20, 88, 25, 30]]⟩

/-- Uncompressed text of the `fE1` dataset. -/
def contentE1 : String := "subject_id,val\n10,a\n10,b\n20,c\n"

/-- A corrupted lookup table: subject 10's range points at subject 20's
bytes `[25, 30)`. -/
def lkCorrupt : Table :=
  ⟨["subject_id", "mini_byteidx_start", "mini_byteidx_end"], [[10, 25, 30]]⟩

/-- A query engine loaded with the corrupted lookup table. -/
def ffCorrupt : FileFilter :=
  ⟨"mini", ["subject_id", "val"], 0, contentE1, true, some lkCorrupt⟩

/-- A healthy lookup table: subject 5 absent from the dataset (sentinel),
subject 10 with its true range. -/
def lkOk : Table :=
  ⟨["subject_id", "mini_byteidx_start", "mini_byteidx_end"],
    [[5, -1, -1], [10, 15, 25]]⟩

/-- A query engine loaded with the healthy lookup table. -/
def ffOk : FileFilter :=
  ⟨"mini", ["subject_id", "val"], 0, contentE1, true, some lkOk⟩

/-- A nonempty batch for the facade example. -/
def batchA : Batch := ⟨["subject_id", "val"], [["42", "x"]]⟩

/-- Facade example: dataset `A` answers, dataset `B` raises, dataset `C`
failed to initialize. -/
def filtersEx : List (String × Option (Int → Except SearchError Batch)) :=
  [("A", some (fun _ => .ok batchA)),
   ("B", some (fun _ => .error .runtimeError)),
   ("C", none)]

/-! ## Helper lemmas on columns, cells and dicts -/

theorem colIdx?_get {p : String} :
    ∀ {l : List String} {j : Nat}, colIdx? p l = some j → l.get? j = some p := by
  intro l
  induction l with
  | nil => intro j h; simp [colIdx?] at h
  | cons c cs ih =>
    intro j h
    by_cases hc : c = p
    · simp [colIdx?, hc] at h
      subst h
      simp [hc]
    · simp [colIdx?, hc] at h
      obtain ⟨j', hj', rfl⟩ := h
      simpa using ih hj'

theorem colIdx?_lt {p : String} {l : List String} {j : Nat}
    (h : colIdx? p l = some j) : j < l.length := by
  have := colIdx?_get h
  exact List.get?_eq_some.mp this |>.choose

theorem colIdx?_of_mem {p : String} :
    ∀ {l : List String}, p ∈ l → ∃ j, colIdx? p l = some j := by
  intro l
  induction l with
  | nil => intro h; simp at h
  | cons c cs ih =>
    intro h
    by_cases hc : c = p
    · exact ⟨0, by simp [colIdx?, hc]⟩
    · have : p ∈ cs := by
        rcases List.mem_cons.mp h with h' | h'
        · exact absurd h'.symm hc
        · exact h'
      obtain ⟨j, hj⟩ := ih this
      exact ⟨j + 1, by simp [colIdx?, hc, hj]⟩

theorem colIdx?_mem {p : String} {l : List String} {j : Nat}
    (h : colIdx? p l = some j) : p ∈ l :=
  List.get?_mem (colIdx?_get h)

theorem colIdx?_append_some {p : String} {l l' : List String} {j : Nat}
    (h : colIdx? p l = some j) : colIdx? p (l ++ l') = some j := by
  induction l generalizing j with
  | nil => simp [colIdx?] at h
  | cons c cs ih =>
    by_cases hc : c = p
    · simp [colIdx?, hc] at h ⊢
      exact h
    · simp [colIdx?, hc] at h ⊢
      obtain ⟨j', hj', rfl⟩ := h
      exact ⟨j', ih hj', rfl⟩

theorem colIdx?_append_of_none {p : String} {l l' : List String}
    (h : colIdx? p l = none) :
    colIdx? p (l ++ l') = (colIdx? p l').map (· + l.length) := by
  induction l with
  | nil => simp
  | cons c cs ih =>
    by_cases hc : c = p
    · simp [colIdx?, hc] at h
    · simp [colIdx?, hc] at h ⊢
      rw [ih h]
      cases colIdx? p l' <;> simp
      omega

theorem colIdx?_snoc_self {p : String} {l : List String}
    (h : colIdx? p l = none) : colIdx? p (l ++ [p]) = some l.length := by
  rw [colIdx?_append_of_none h]
  simp [colIdx?]

theorem getIdx_setIdx_ne {j j' : Nat} (hne : j ≠ j') (v : Int) :
    ∀ r : List Int, getIdx (setIdx r j v) j' = getIdx r j' := by
  intro r
  induction r generalizing j j' with
  | nil => simp [setIdx]
  | cons x tl ih =>
    cases j with
    | zero =>
      cases j' with
      | zero => exact absurd rfl hne
      | succ j' => simp [setIdx, getIdx]
    | succ j =>
      cases j' with
      | zero => simp [setIdx, getIdx]
      | succ j' => simpa [setIdx, getIdx] using ih (by omega)

theorem getIdx_setIdx_self {j : Nat} (v : Int) :
    ∀ r : List Int, j < r.length → getIdx (setIdx r j v) j = v := by
  intro r
  induction r generalizing j with
  | nil => intro h; simp at h
  | cons x tl ih =>
    intro h
    cases j with
    | zero => simp [setIdx, getIdx]
    | succ j =>
      simp [setIdx, getIdx]
      exact ih (by simpa using h)

theorem setIdx_length (j : Nat) (v : Int) :
    ∀ r : List Int, (setIdx r j v).length = r.length := by
  intro r
  induction r generalizing j with
  | nil => simp [setIdx]
  | cons x tl ih =>
    cases j with
    | zero => simp [setIdx]
    | succ j => simp [setIdx, ih]

theorem setIdx_getIdx_self :
    ∀ (r : List Int) (j : Nat), setIdx r j (getIdx r j) = r := by
  intro r
  induction r with
  | nil => intro j; simp [setIdx]
  | cons x tl ih =>
    intro j
    cases j with
    | zero => simp [setIdx, getIdx]
    | succ j => simp [setIdx, getIdx, ih]

theorem getIdx_append_lt {j : Nat} {r : List Int} (h : j < r.length) (v : Int) :
    getIdx (r ++ [v]) j = getIdx r j := by
  induction r generalizing j with
  | nil => simp at h
  | cons x tl ih =>
    cases j with
    | zero => simp [getIdx]
    | succ j =>
      simp [getIdx]
      exact ih (by simpa using h)

theorem getIdx_append_self (v : Int) :
    ∀ r : List Int, getIdx (r ++ [v]) r.length = v := by
  intro r
  induction r with
  | nil => simp [getIdx]
  | cons x tl ih => simpa [getIdx] using ih

/-! ## Column lemmas for the Subject-Range Table -/

theorem map_getIdx_zipWith_setIdx {j j' : Nat} (hne : j ≠ j') :
    ∀ (rows : List (List Int)) (vals : List Int), vals.length = rows.length →
    (List.zipWith (fun r v => setIdx r j v) rows vals).map (fun r => getIdx r j') =
      rows.map (fun r => getIdx r j') := by
  intro rows
  induction rows with
  | nil => intro vals h; simp
  | cons r rs ih =>
    intro vals h
    cases vals with
    | nil => simp at h
    | cons v vs =>
      simp only [List.zipWith, List.map]
      rw [getIdx_setIdx_ne hne, ih vs (by simpa using h)]

theorem map_getIdx_zipWith_setIdx_self {j : Nat} :
    ∀ (rows : List (List Int)) (vals : List Int), vals.length = rows.length →
    (∀ r ∈ rows, j < r.length) →
    (List.zipWith (fun r v => setIdx r j v) rows vals).map (fun r => getIdx r j) =
      vals := by
  intro rows
  induction rows with
  | nil => intro vals h _; simp [List.length_eq_zero.mp h]
  | cons r rs ih =>
    intro vals h hlt
    cases vals with
    | nil => simp at h
    | cons v vs =>
      simp only [List.zipWith, List.map]
      rw [getIdx_setIdx_self v r (hlt r (by simp)),
        ih vs (by simpa using h) (fun r' hr' => hlt r' (by simp [hr']))]

theorem map_getIdx_zipWith_snoc {j : Nat} :
    ∀ (rows : List (List Int)) (vals : List Int), vals.length = rows.length →
    (∀ r ∈ rows, j < r.length) →
    (List.zipWith (fun r v => r ++ [v]) rows vals).map (fun r => getIdx r j) =
      rows.map (fun r => getIdx r j) := by
  intro rows
  induction rows with
  | nil => intro vals h _; simp
  | cons r rs ih =>
    intro vals h hlt
    cases vals with
    | nil => simp at h
    | cons v vs =>
      simp only [List.zipWith, List.map]
      rw [getIdx_append_lt (hlt r (by simp)),
        ih vs (by simpa using h) (fun r' hr' => hlt r' (by simp [hr']))]

theorem map_getIdx_zipWith_snoc_self {j : Nat} :
    ∀ (rows : List (List Int)) (vals : List Int), vals.length = rows.length →
    (∀ r ∈ rows, r.length = j) →
    (List.zipWith (fun r v => r ++ [v]) rows vals).map (fun r => getIdx r j) =
      vals := by
  intro rows
  induction rows with
  | nil => intro vals h _; simp [List.length_eq_zero.mp h]
  | cons r rs ih =>
    intro vals h hlen
    cases vals with
    | nil => simp at h
    | cons v vs =>
      simp only [List.zipWith, List.map]
      have h1 : getIdx (r ++ [v]) j = v := by
        rw [← hlen r (by simp)]
        exact getIdx_append_self v r
      rw [h1, ih vs (by simpa using h) (fun r' hr' => hlen r' (by simp [hr']))]

theorem zipWith_setIdx_self {j : Nat} :
    ∀ rows : List (List Int),
    List.zipWith (fun r v => setIdx r j v) rows (rows.map (fun r => getIdx r j)) =
      rows := by
  intro rows
  induction rows with
  | nil => simp
  | cons r rs ih => simp [List.zipWith, setIdx_getIdx_self, ih]

theorem getColumn_length {t : Table} {name : String} (h : name ∈ t.columns) :
    (getColumn t name).length = t.rows.length := by
  obtain ⟨j, hj⟩ := colIdx?_of_mem h
  simp [getColumn, hj]

theorem setColumn_rows_length {t : Table} {name : String} {vals : List Int}
    (hlen : vals.length = t.rows.length) :
    (setColumn t name vals).rows.length = t.rows.length := by
  unfold setColumn
  cases colIdx? name t.columns <;> simp [List.length_zipWith, hlen]

theorem zipWith_setIdx_lengths {j : Nat} {L : Nat} :
    ∀ (rows : List (List Int)) (vals : List Int), (∀ r ∈ rows, r.length = L) →
    ∀ r' ∈ List.zipWith (fun r v => setIdx r j v) rows vals, r'.length = L := by
  intro rows
  induction rows with
  | nil => intro vals _ r' hr'; simp at hr'
  | cons r rs ih =>
    intro vals hlen r' hr'
    cases vals with
    | nil => simp at hr'
    | cons v vs =>
      simp only [List.zipWith, List.mem_cons] at hr'
      rcases hr' with rfl | hr'
      · rw [setIdx_length]; exact hlen r (by simp)
      · exact ih vs (fun r'' h'' => hlen r'' (by simp [h''])) r' hr'

theorem zipWith_snoc_lengths {L : Nat} :
    ∀ (rows : List (List Int)) (vals : List Int), (∀ r ∈ rows, r.length = L) →
    ∀ r' ∈ List.zipWith (fun r v => r ++ [v]) rows vals, r'.length = L + 1 := by
  intro rows
  induction rows with
  | nil => intro vals _ r' hr'; simp at hr'
  | cons r rs ih =>
    intro vals hlen r' hr'
    cases vals with
    | nil => simp at hr'
    | cons v vs =>
      simp only [List.zipWith, List.mem_cons] at hr'
      rcases hr' with rfl | hr'
      · simp [hlen r (by simp)]
      · exact ih vs (fun r'' h'' => hlen r'' (by simp [h''])) r' hr'

theorem setColumn_WF {t : Table} {name : String} {vals : List Int}
    (hwf : t.WF) : (setColumn t name vals).WF := by
  unfold setColumn
  cases h : colIdx? name t.columns with
  | some j =>
    intro r' hr'
    exact zipWith_setIdx_lengths t.rows vals hwf r' hr'
  | none =>
    intro r' hr'
    simp only [List.length_append, List.length_cons, List.length_nil]
    exact zipWith_snoc_lengths t.rows vals hwf r' hr'

theorem getColumn_setColumn_ne {t : Table} {name name' : String} {vals : List Int}
    (hlen : vals.length = t.rows.length) (hwf : t.WF) (hne : name' ≠ name) :
    getColumn (setColumn t name vals) name' = getColumn t name' := by
  unfold setColumn
  cases h : colIdx? name t.columns with
  | some j =>
    unfold getColumn
    simp only
    cases h' : colIdx? name' t.columns with
    | some j' =>
      have hjj : j ≠ j' := by
        intro hcontra
        subst hcontra
        have h1 := colIdx?_get h
        have h2 := colIdx?_get h'
        rw [h1] at h2
        exact hne (Option.some_injective _ h2).symm
      exact map_getIdx_zipWith_setIdx hjj t.rows vals hlen
    | none => rfl
  | none =>
    unfold getColumn
    simp only
    cases h' : colIdx? name' t.columns with
    | some j' =>
      rw [colIdx?_append_some h']
      have hj' : j' < t.columns.length := colIdx?_lt h'
      exact map_getIdx_zipWith_snoc t.rows vals hlen
        (fun r hr => by rw [hwf r hr]; exact hj')
    | none =>
      have : colIdx? name' (t.columns ++ [name]) = none := by
        rw [colIdx?_append_of_none h']
        have : name ≠ name' := fun hcontra => hne hcontra.symm
        simp [colIdx?, this]
      rw [this]

theorem getColumn_setColumn_self {t : Table} {name : String} {vals : List Int}
    (hlen : vals.length = t.rows.length) (hwf : t.WF) :
    getColumn (setColumn t name vals) name = vals := by
  unfold setColumn
  cases h : colIdx? name t.columns with
  | some j =>
    unfold getColumn
    simp only [h]
    exact map_getIdx_zipWith_setIdx_self t.rows vals hlen
      (fun r hr => by rw [hwf r hr]; exact colIdx?_lt h)
  | none =>
    unfold getColumn
    simp only [colIdx?_snoc_self h]
    exact map_getIdx_zipWith_snoc_self t.rows vals hlen (fun r hr => hwf r hr)

theorem mem_setColumn_self {t : Table} {name : String} {vals : List Int} :
    name ∈ (setColumn t name vals).columns := by
  unfold setColumn
  cases h : colIdx? name t.columns with
  | some j => exact colIdx?_mem h
  | none => simp

theorem mem_setColumn_of_mem {t : Table} {name c : String} {vals : List Int}
    (h : c ∈ t.columns) : c ∈ (setColumn t name vals).columns := by
  unfold setColumn
  cases colIdx? name t.columns with
  | some j => exact h
  | none => simp [h]

theorem setColumn_eq_self {t : Table} {name : String} {vals : List Int}
    (hmem : name ∈ t.columns) (hget : getColumn t name = vals) :
    setColumn t name vals = t := by
  obtain ⟨j, hj⟩ := colIdx?_of_mem hmem
  obtain ⟨cols, rows⟩ := t
  unfold setColumn
  simp only [hj]
  unfold getColumn at hget
  simp only [hj] at hget
  rw [← hget]
  rw [zipWith_setIdx_self rows]

/-! ## Lemmas about the builder's table update -/

theorem length_suffix_start (fid : String) :
    (fid ++ "_byteidx_start").length = fid.length + 14 := by
  rw [String.length_append]
  rfl

theorem length_suffix_end (fid : String) :
    (fid ++ "_byteidx_end").length = fid.length + 12 := by
  rw [String.length_append]
  rfl

theorem subject_ne_startCol (fid : String) :
    "subject_id" ≠ fid ++ "_byteidx_start" := by
  intro h
  have := congrArg String.length h
  rw [length_suffix_start] at this
  have h10 : ("subject_id" : String).length = 10 := rfl
  omega

theorem subject_ne_endCol (fid : String) :
    "subject_id" ≠ fid ++ "_byteidx_end" := by
  intro h
  have := congrArg String.length h
  rw [length_suffix_end] at this
  have h10 : ("subject_id" : String).length = 10 := rfl
  omega

theorem startCol_ne_endCol (fid : String) :
    fid ++ "_byteidx_start" ≠ fid ++ "_byteidx_end" := by
  intro h
  have := congrArg String.length h
  rw [length_suffix_start, length_suffix_end] at this
  omega

theorem startVals_length (sids : List Int) (offs : List (Int × Nat × Nat)) :
    (startVals sids offs).length = sids.length := by
  simp [startVals]

theorem endVals_length (sids : List Int) (offs : List (Int × Nat × Nat)) :
    (endVals sids offs).length = sids.length := by
  simp [endVals]

theorem update_byte_index_subjects {t : Table} {fid : String}
    {offs : List (Int × Nat × Nat)} (hwf : t.WF)
    (hsub : "subject_id" ∈ t.columns) :
    getColumn (update_byte_index t fid offs) "subject_id" =
      getColumn t "subject_id" := by
  unfold update_byte_index
  have hsids : (getColumn t "subject_id").length = t.rows.length :=
    getColumn_length hsub
  have hlen1 : (startVals (getColumn t "subject_id") offs).length = t.rows.length := by
    rw [startVals_length]; exact hsids
  have hlen2 : (endVals (getColumn t "subject_id") offs).length =
      (setColumn t (fid ++ "_byteidx_start")
        (startVals (getColumn t "subject_id") offs)).rows.length := by
    rw [endVals_length, hsids, setColumn_rows_length hlen1]
  rw [getColumn_setColumn_ne hlen2 (setColumn_WF hwf) (subject_ne_endCol fid)]
  rw [getColumn_setColumn_ne hlen1 hwf (subject_ne_startCol fid)]

theorem update_byte_index_other_cols {t : Table} {fid c : String}
    {offs : List (Int × Nat × Nat)} (hwf : t.WF)
    (hsub : "subject_id" ∈ t.columns)
    (h1 : c ≠ fid ++ "_byteidx_start") (h2 : c ≠ fid ++ "_byteidx_end") :
    getColumn (update_byte_index t fid offs) c = getColumn t c := by
  unfold update_byte_index
  have hsids : (getColumn t "subject_id").length = t.rows.length :=
    getColumn_length hsub
  have hlen1 : (startVals (getColumn t "subject_id") offs).length = t.rows.length := by
    rw [startVals_length]; exact hsids
  have hlen2 : (endVals (getColumn t "subject_id") offs).length =
      (setColumn t (fid ++ "_byteidx_start")
        (startVals (getColumn t "subject_id") offs)).rows.length := by
    rw [endVals_length, hsids, setColumn_rows_length hlen1]
  rw [getColumn_setColumn_ne hlen2 (setColumn_WF hwf) h2]
  rw [getColumn_setColumn_ne hlen1 hwf h1]

theorem update_byte_index_start_col {t : Table} {fid : String}
    {offs : List (Int × Nat × Nat)} (hwf : t.WF)
    (hsub : "subject_id" ∈ t.columns) :
    getColumn (update_byte_index t fid offs) (fid ++ "_byteidx_start") =
      startVals (getColumn t "subject_id") offs := by
  unfold update_byte_index
  have hsids : (getColumn t "subject_id").length = t.rows.length :=
    getColumn_length hsub
  have hlen1 : (startVals (getColumn t "subject_id") offs).length = t.rows.length := by
    rw [startVals_length]; exact hsids
  have hlen2 : (endVals (getColumn t "subject_id") offs).length =
      (setColumn t (fid ++ "_byteidx_start")
        (startVals (getColumn t "subject_id") offs)).rows.length := by
    rw [endVals_length, hsids, setColumn_rows_length hlen1]
  rw [getColumn_setColumn_ne hlen2 (setColumn_WF hwf) (startCol_ne_endCol fid)]
  exact getColumn_setColumn_self hlen1 hwf

theorem update_byte_index_end_col {t : Table} {fid : String}
    {offs : List (Int × Nat × Nat)} (hwf : t.WF)
    (hsub : "subject_id" ∈ t.columns) :
    getColumn (update_byte_index t fid offs) (fid ++ "_byteidx_end") =
      endVals (getColumn t "subject_id") offs := by
  unfold update_byte_index
  have hsids : (getColumn t "subject_id").length = t.rows.length :=
    getColumn_length hsub
  have hlen1 : (startVals (getColumn t "subject_id") offs).length = t.rows.length := by
    rw [startVals_length]; exact hsids
  have hlen2 : (endVals (getColumn t "subject_id") offs).length =
      (setColumn t (fid ++ "_byteidx_start")
        (startVals (getColumn t "subject_id") offs)).rows.length := by
    rw [endVals_length, hsids, setColumn_rows_length hlen1]
  exact getColumn_setColumn_self hlen2 (setColumn_WF hwf)

theorem update_byte_index_WF {t : Table} {fid : String}
    {offs : List (Int × Nat × Nat)} (hwf : t.WF) :
    (update_byte_index t fid offs).WF :=
  setColumn_WF (setColumn_WF hwf)

theorem update_byte_index_fixed_point {t : Table} {fid : String}
    {offs : List (Int × Nat × Nat)} (hwf : t.WF)
    (hsub : "subject_id" ∈ t.columns) :
    update_byte_index (update_byte_index t fid offs) fid offs =
      update_byte_index t fid offs := by
  have hsub1 : "subject_id" ∈ (update_byte_index t fid offs).columns :=
    mem_setColumn_of_mem (mem_setColumn_of_mem hsub)
  have hsubeq : getColumn (update_byte_index t fid offs) "subject_id" =
      getColumn t "subject_id" := update_byte_index_subjects hwf hsub
  conv_lhs => rw [update_byte_index]
  rw [hsubeq]
  have hs : setColumn (update_byte_index t fid offs) (fid ++ "_byteidx_start")
      (startVals (getColumn t "subject_id") offs) = update_byte_index t fid offs :=
    setColumn_eq_self (mem_setColumn_of_mem mem_setColumn_self)
      (update_byte_index_start_col hwf hsub)
  rw [hs]
  exact setColumn_eq_self mem_setColumn_self
    (update_byte_index_end_col hwf hsub)

theorem generate_byte_index_some_elim {f : DataFile} {sortCol fid : String}
    {t t' : Table} (h : generate_byte_index f sortCol fid t = some t') :
    "subject_id" ∈ t.columns ∧
    ∃ offs, generate_offsets f sortCol = some offs ∧
      t' = update_byte_index t fid offs := by
  unfold generate_byte_index at h
  by_cases hsub : "subject_id" ∈ t.columns
  · simp only [hsub, if_true] at h
    cases hoffs : generate_offsets f sortCol with
    | none => rw [hoffs] at h; simp at h
    | some offs =>
      rw [hoffs] at h
      simp only [Option.map_some'] at h
      exact ⟨hsub, offs, rfl, (Option.some_injective _ h).symm⟩
  · simp [hsub] at h

theorem generate_offsets_nil {f : DataFile} {sortCol : String}
    {offs : List (Int × Nat × Nat)} (hl : f.lines = [])
    (h : generate_offsets f sortCol = some offs) : offs = [] := by
  unfold generate_offsets at h
  cases hidx : colIdx? sortCol (headerCols f.header) with
  | none => rw [hidx] at h; simp at h
  | some idx =>
    rw [hidx, hl] at h
    simp only [scanLines, Option.map_some'] at h
    exact (Option.some_injective _ h).symm

/-- Claim C3 (counterexample): the builder does not union discovered
subjects into the table.  On the dataset `fE1` — in which subject 20 is
discovered, with range `[25, 30)` — building over a table listing only
subject 10 yields a table still listing only subject 10: the discovered
subject 20 gets no row and its range is dropped, contradicting the claimed
set-union behaviour. -/
theorem generate_byte_index_drops_new_subject_counterexample :
    generate_offsets fE1 "subject_id" = some rangesE1 ∧
    generate_byte_index fE1 "subject_id" "mini" tSolo = some tSolo' ∧
    getColumn tSolo' "subject_id" = [10] := by
  exact ⟨rfl, rfl, rfl⟩

/-- Claim C3 (amended): the builder updates only subjects already listed in
the lookup table.  The table's `subject_id` column is unchanged by the
build, and every already-listed subject found in the scan gets its
discovered range; discovered subjects without a pre-existing row are
dropped. -/
theorem generate_byte_index_existing_subjects_only
    (f : DataFile) (sortCol fid : String) (t t' : Table)
    (offs : List (Int × Nat × Nat)) (hwf : t.WF)
    (hoffs : generate_offsets f sortCol = some offs)
    (hgen : generate_byte_index f sortCol fid t = some t') :
    getColumn t' "subject_id" = getColumn t "subject_id" ∧
    (∀ i sid s e, (getColumn t "subject_id").get? i = some sid →
      dictLookup sid offs = some (s, e) →
      (getColumn t' (fid ++ "_byteidx_start")).get? i = some (s : Int) ∧
      (getColumn t' (fid ++ "_byteidx_end")).get? i = some (e : Int)) := by
  obtain ⟨hsub, offs', hoffs', rfl⟩ := generate_byte_index_some_elim hgen
  rw [hoffs] at hoffs'
  obtain rfl : offs = offs' := Option.some_injective _ hoffs'
  refine ⟨update_byte_index_subjects hwf hsub, ?_⟩
  intro i sid s e hsid hdict
  rw [update_byte_index_start_col hwf hsub, update_byte_index_end_col hwf hsub]
  unfold startVals endVals
  rw [List.get?_map, List.get?_map, hsid]
  simp [hdict]

/-- Claim C3 (amended, witness): instantiated on `fE1` over the full table
`tE1`. -/
theorem generate_byte_index_existing_subjects_only_witness :
    getColumn tE1' "subject_id" = [10, 20, 99] ∧
    (getColumn tE1' "mini_byteidx_start").get? 0 = some 15 ∧
    (getColumn tE1' "mini_byteidx_end").get? 0 = some 25 := by
  obtain ⟨h1, h2⟩ := generate_byte_index_existing_subjects_only
    fE1 "subject_id" "mini" tE1 tE1' rangesE1 (by decide) rfl rfl
  obtain ⟨h3, h4⟩ := h2 0 10 15 25 rfl rfl
  exact ⟨h1.trans rfl, h3, h4⟩

/-- Claim C4 (counterexample): the second build over an already-populated
table is not a skip.  Starting from `tE1'`, the table produced by a first
build of `fE1` (its `mini` columns hold non-sentinel entries `15, 25`), a
second run still reads all 3 data lines of the dataset — the source has no
"already populated" check — even though the resulting table is unchanged. -/
theorem generate_byte_index_second_run_rescans_counterexample :
    generate_byte_index fE1 "subject_id" "mini" tE1 = some tE1' ∧
    getColumn tE1' "mini_byteidx_start" = [15, 25, -1] ∧
    generate_byte_index_run fE1 "subject_id" "mini" tE1' = (some tE1', 3) := by
  exact ⟨rfl, rfl, rfl⟩

/-- Claim C4 (amended): building twice without intervening changes is
idempotent in its result — the second run re-scans and rewrites, but the
Subject-Range Table it writes is identical to the one the first run
wrote. -/
theorem generate_byte_index_idempotent
    (f : DataFile) (sortCol fid : String) (t t1 : Table) (hwf : t.WF)
    (hgen : generate_byte_index f sortCol fid t = some t1) :
    generate_byte_index f sortCol fid t1 = some t1 := by
  obtain ⟨hsub, offs, hoffs, rfl⟩ := generate_byte_index_some_elim hgen
  have hsub1 : "subject_id" ∈ (update_byte_index t fid offs).columns :=
    mem_setColumn_of_mem (mem_setColumn_of_mem hsub)
  unfold generate_byte_index
  rw [if_pos hsub1, hoffs]
  simp only [Option.map_some']
  rw [update_byte_index_fixed_point hwf hsub]

/-- Claim C4 (amended, witness): the second build of `fE1` over `tE1'`
returns `tE1'` unchanged. -/
theorem generate_byte_index_idempotent_witness :
    generate_byte_index fE1 "subject_id" "mini" tE1' = some tE1' :=
  generate_byte_index_idempotent fE1 "subject_id" "mini" tE1 tE1'
    (by decide) rfl

/-- Claim C8: every subject listed in the table but not discovered during
the build gets the sentinel `(-1, -1)` in the dataset's two columns, and an
empty dataset (header only) discovers no subjects at all, so every listed
subject gets the sentinel. -/
theorem generate_byte_index_absence_sentinel
    (f : DataFile) (sortCol fid : String) (t t' : Table)
    (offs : List (Int × Nat × Nat)) (hwf : t.WF)
    (hoffs : generate_offsets f sortCol = some offs)
    (hgen : generate_byte_index f sortCol fid t = some t') :
    (∀ i sid, (getColumn t "subject_id").get? i = some sid →
      dictLookup sid offs = none →
      (getColumn t' (fid ++ "_byteidx_start")).get? i = some (-1) ∧
      (getColumn t' (fid ++ "_byteidx_end")).get? i = some (-1)) ∧
    (f.lines = [] → offs = []) := by
  obtain ⟨hsub, offs', hoffs', rfl⟩ := generate_byte_index_some_elim hgen
  rw [hoffs] at hoffs'
  obtain rfl : offs = offs' := Option.some_injective _ hoffs'
  constructor
  · intro i sid hsid hdict
    rw [update_byte_index_start_col hwf hsub, update_byte_index_end_col hwf hsub]
    unfold startVals endVals
    rw [List.get?_map, List.get?_map, hsid]
    simp [hdict]
  · intro hl
    exact generate_offsets_nil hl hoffs

/-- Claim C8 (witness): building the empty dataset `fEmpty` over `tE1`
succeeds and marks subject 10 (and the others) with `(-1, -1)`. -/
theorem generate_byte_index_absence_sentinel_witness :
    (getColumn tEmpty' "mini_byteidx_start").get? 0 = some (-1) ∧
    (getColumn tEmpty' "mini_byteidx_end").get? 0 = some (-1) := by
  obtain ⟨h1, _⟩ := generate_byte_index_absence_sentinel
    fEmpty "subject_id" "mini" tE1 tEmpty' [] (by decide) rfl rfl
  exact h1 0 10 rfl rfl

/-- Claim C9 (counterexample): the builder does not sort the persisted
table.  Building over a table whose rows list subjects `[20, 10]` writes
the rows back in that same order, which is not ascending. -/
theorem generate_byte_index_unsorted_counterexample :
    generate_byte_index fE1 "subject_id" "mini" tUnsorted = some tUnsorted' ∧
    getColumn tUnsorted' "subject_id" = [20, 10] ∧
    ¬ List.Chain' (fun a b => a ≤ b) (getColumn tUnsorted' "subject_id") := by
  refine ⟨rfl, rfl, ?_⟩
  intro h
  have h' : List.Chain' (fun a b : Int => a ≤ b) [20, 10] := h
  rw [List.chain'_cons] at h'
  omega

/-- Claim C9 (amended): every write of the builder preserves the row order
of the input table; in particular the persisted CSV is sorted ascending by
`subject_id` exactly when the input table already was. -/
theorem generate_byte_index_preserves_row_order
    (f : DataFile) (sortCol fid : String) (t t' : Table) (hwf : t.WF)
    (hgen : generate_byte_index f sortCol fid t = some t') :
    getColumn t' "subject_id" = getColumn t "subject_id" ∧
    (List.Chain' (fun a b => a ≤ b) (getColumn t "subject_id") →
      List.Chain' (fun a b => a ≤ b) (getColumn t' "subject_id")) := by
  obtain ⟨hsub, offs, hoffs, rfl⟩ := generate_byte_index_some_elim hgen
  have h : getColumn (update_byte_index t fid offs) "subject_id" =
      getColumn t "subject_id" := update_byte_index_subjects hwf hsub
  exact ⟨h, fun hs => h ▸ hs⟩

/-- Claim C9 (amended, witness): building `fE1` over the sorted table `tE1`
keeps the rows sorted. -/
theorem generate_byte_index_preserves_row_order_witness :
    getColumn tE1' "subject_id" = [10, 20, 99] ∧
    List.Chain' (fun a b : Int => a ≤ b) (getColumn tE1' "subject_id") := by
  obtain ⟨h1, h2⟩ := generate_byte_index_preserves_row_order
    fE1 "subject_id" "mini" tE1 tE1' (by decide) rfl
  refine ⟨h1.trans rfl, h2 ?_⟩
  show List.Chain' (fun a b : Int => a ≤ b) [10, 20, 99]
  rw [List.chain'_cons, List.chain'_cons]
  exact ⟨by omega, by omega, List.chain'_singleton 99⟩

/-- Claim C10: a build for dataset `fid` touches only the two columns
`{fid}_byteidx_start` and `{fid}_byteidx_end` of the lookup CSV: every
other column keeps its values, and the `subject_id` rows keep their set and
order. -/
theorem generate_byte_index_frame
    (f : DataFile) (sortCol fid : String) (t t' : Table) (hwf : t.WF)
    (hgen : generate_byte_index f sortCol fid t = some t') :
    (∀ c, c ≠ fid ++ "_byteidx_start" → c ≠ fid ++ "_byteidx_end" →
      getColumn t' c = getColumn t c) ∧
    getColumn t' "subject_id" = getColumn t "subject_id" := by
  obtain ⟨hsub, offs, hoffs, rfl⟩ := generate_byte_index_some_elim hgen
  exact ⟨fun c h1 h2 => update_byte_index_other_cols hwf hsub h1 h2,
    update_byte_index_subjects hwf hsub⟩

/-- Claim C10 (witness): on a table with an extra data column, the build of
`fE1` leaves that column untouched. -/
theorem generate_byte_index_frame_witness :
    getColumn tExtra' "age" = [77, 88] ∧
    getColumn tExtra' "subject_id" = [10, 20] := by
  obtain ⟨h1, h2⟩ := generate_byte_index_frame
    fE1 "subject_id" "mini" tExtra tExtra' (by decide) rfl
  refine ⟨(h1 "age" (by decide) (by decide)).trans rfl, h2.trans rfl⟩

/-! ## Query-engine claims -/

/-- Claim C6: a subject that is absent from the lookup table, or whose
stored range for this dataset is the sentinel `(-1, -1)`, gets an empty
row batch carrying the dataset's header as column names, and no error is
raised. -/
theorem search_subject_absent_or_sentinel_empty
    (ff : FileFilter) (lk : Table) (subjectId : Int)
    (hgz : ff.hasIndexedGzip = true)
    (hlk : ff.lookup = some lk)
    (hsc : ff.fileId ++ "_byteidx_start" ∈ lk.columns)
    (hec : ff.fileId ++ "_byteidx_end" ∈ lk.columns)
    (habs : subjectId ∉ tableIndex lk ∨
      (tableGet lk subjectId (ff.fileId ++ "_byteidx_start") = some (-1) ∧
       tableGet lk subjectId (ff.fileId ++ "_byteidx_end") = some (-1))) :
    search_subject ff subjectId = .ok ⟨ff.header, []⟩ := by
  have hni : ¬ (ff.hasIndexedGzip = false) := by rw [hgz]; simp
  unfold search_subject
  rw [if_neg hni]
  simp only [hlk]
  have hcols : ¬ (ff.fileId ++ "_byteidx_start" ∉ lk.columns ∨
      ff.fileId ++ "_byteidx_end" ∉ lk.columns) := by
    push_neg
    exact ⟨hsc, hec⟩
  rw [if_neg hcols]
  rcases habs with habs | ⟨hs, he⟩
  · rw [if_pos habs]
  · by_cases hmem : subjectId ∉ tableIndex lk
    · rw [if_pos hmem]
    · rw [if_neg hmem, hs, he]
      simp

/-- Claim C6 (witness): on the healthy engine `ffOk`, subject 99 (not a row
of the lookup table) and subject 5 (sentinel row) both get the empty batch
with the dataset's header. -/
theorem search_subject_absent_or_sentinel_empty_witness :
    search_subject ffOk 99 = .ok ⟨["subject_id", "val"], []⟩ ∧
    search_subject ffOk 5 = .ok ⟨["subject_id", "val"], []⟩ := by
  constructor
  · exact (search_subject_absent_or_sentinel_empty ffOk lkOk 99 rfl rfl
      (by decide) (by decide) (Or.inl (by decide))).trans rfl
  · exact (search_subject_absent_or_sentinel_empty ffOk lkOk 5 rfl rfl
      (by decide) (by decide) (Or.inr ⟨rfl, rfl⟩)).trans rfl

/-- Claim C2 (counterexample): on the engine `ffCorrupt`, whose lookup
table sends subject 10 to the byte range `[25, 30)` — subject 20's bytes —
the range is resolved, the bytes `"20,c\n"` are read and parsed, and the
first parsed row's sort-column value 20 differs from the queried subject
10; yet `search_subject` does not signal any error: it returns the empty
row batch, the same value as the normal subject-absent path. -/
theorem search_subject_corrupt_index_counterexample :
    tableGet lkCorrupt 10 "mini_byteidx_start" = some 25 ∧
    tableGet lkCorrupt 10 "mini_byteidx_end" = some 30 ∧
    byteSlice contentE1 25 5 = "20,c\n" ∧
    parseRows "20,c\n" = [["20", "c"]] ∧
    search_subject ffCorrupt 10 = .ok ⟨["subject_id", "val"], []⟩ := by
  exact ⟨rfl, rfl, rfl, rfl, rfl⟩

/-- Claim C2 (amended): when the resolved byte range is read and parsed and
the first parsed row's sort-column value differs from the queried subject,
`File_Filter.search_subject` logs the corruption but returns the empty row
batch with the dataset's header — the same value as the subject-absent
path — rather than signalling a fatal error to the caller; it performs no
fallback scan (the row-by-row binary-search fallback exists only in the
legacy `Filter.search_subject` of `filtering.py`). -/
theorem search_subject_mismatch_returns_empty
    (ff : FileFilter) (lk : Table) (subjectId startByte endByte : Int)
    (first : List String) (rest : List (List String))
    (hgz : ff.hasIndexedGzip = true)
    (hlk : ff.lookup = some lk)
    (hsc : ff.fileId ++ "_byteidx_start" ∈ lk.columns)
    (hec : ff.fileId ++ "_byteidx_end" ∈ lk.columns)
    (hmem : subjectId ∈ tableIndex lk)
    (hs : tableGet lk subjectId (ff.fileId ++ "_byteidx_start") = some startByte)
    (he : tableGet lk subjectId (ff.fileId ++ "_byteidx_end") = some endByte)
    (hs1 : startByte ≠ -1) (he1 : endByte ≠ -1)
    (hdata : byteSlice ff.content startByte.toNat (endByte - startByte).toNat ≠ "")
    (hrows : parseRows
      (byteSlice ff.content startByte.toNat (endByte - startByte).toNat) =
        first :: rest)
    (hmis : ∀ v, pyInt? (getField first ff.sortColIdx) = some v →
      v ≠ subjectId) :
    search_subject ff subjectId = .ok ⟨ff.header, []⟩ := by
  have hni : ¬ (ff.hasIndexedGzip = false) := by rw [hgz]; simp
  unfold search_subject
  rw [if_neg hni]
  simp only [hlk]
  have hcols : ¬ (ff.fileId ++ "_byteidx_start" ∉ lk.columns ∨
      ff.fileId ++ "_byteidx_end" ∉ lk.columns) := by
    push_neg
    exact ⟨hsc, hec⟩
  rw [if_neg hcols, if_neg (not_not_intro hmem), hs, he]
  simp only
  rw [if_neg (by simp [hs1, he1])]
  unfold readAndVerify
  rw [if_neg hdata, hrows]
  simp only
  cases hv : pyInt? (getField first ff.sortColIdx) with
  | none => simp [hv]
  | some v =>
    have hne : v ≠ subjectId := hmis v hv
    simp [hv, hne]

/-- Claim C2 (amended, witness): instantiated on the corrupted engine
`ffCorrupt` at subject 10. -/
theorem search_subject_mismatch_returns_empty_witness :
    search_subject ffCorrupt 10 = .ok ⟨["subject_id", "val"], []⟩ := by
  have h := search_subject_mismatch_returns_empty ffCorrupt lkCorrupt
    10 25 30 ["20", "c"] [] rfl rfl (by decide) (by decide) (by decide)
    rfl rfl (by decide) (by decide) (by decide) rfl
    (fun v hv hcontra => by rw [hcontra] at hv; exact absurd hv (by decide))
  exact h.trans rfl

/-! ## Facade claim -/

/-- Claim C7: the facade returns one entry per registered dataset, in
order; a per-dataset fetch that raises contributes an empty batch for that
dataset while every other dataset's fetch result is returned unchanged,
and no error propagates (the facade is a total function into the result
mapping). -/
theorem get_all_subject_data_isolates_failures
    (filters : List (String × Option (Int → Except SearchError Batch)))
    (subjectId : Int) :
    (get_all_subject_data filters subjectId).map Prod.fst =
      filters.map Prod.fst ∧
    (∀ i fid srch e, filters.get? i = some (fid, some srch) →
      srch subjectId = .error e →
      (get_all_subject_data filters subjectId).get? i =
        some (fid, some ⟨[], []⟩)) ∧
    (∀ i fid srch b, filters.get? i = some (fid, some srch) →
      srch subjectId = .ok b →
      (get_all_subject_data filters subjectId).get? i =
        some (fid, some b)) := by
  refine ⟨?_, ?_, ?_⟩
  · unfold get_all_subject_data
    induction filters with
    | nil => rfl
    | cons fi fs ih =>
      cases hfi : fi.2 with
      | none =>
        simp only [List.map, hfi]
        rw [ih]
      | some srch =>
        cases h2 : srch subjectId <;>
          (simp only [List.map, hfi, h2]; rw [ih])
  · intro i fid srch e hi hsrch
    unfold get_all_subject_data
    rw [List.get?_map, hi]
    simp [hsrch]
  · intro i fid srch b hi hsrch
    unfold get_all_subject_data
    rw [List.get?_map, hi]
    simp [hsrch]

/-- Claim C7 (witness): on the example facade — dataset `A` answering,
dataset `B` raising, dataset `C` uninitialized — the result keeps all
three keys in order, maps `B` to the empty column-less batch, and maps `A`
to its answered batch. -/
theorem get_all_subject_data_isolates_failures_witness :
    (get_all_subject_data filtersEx 42).map Prod.fst = ["A", "B", "C"] ∧
    (get_all_subject_data filtersEx 42).get? 1 =
      some ("B", some ⟨[], []⟩) ∧
    (get_all_subject_data filtersEx 42).get? 0 = some ("A", some batchA) := by
  obtain ⟨h1, h2, h3⟩ := get_all_subject_data_isolates_failures filtersEx 42
  exact ⟨h1.trans rfl,
    h2 1 "B" (fun _ => .error .runtimeError) .runtimeError rfl rfl,
    h3 0 "A" (fun _ => .ok batchA) batchA rfl rfl⟩

/-! ## The scan invariant

The loop of `generate_byte_index` is related to its parsed-line version
`pureScan`, and `ScanInv` is carried through it: the flushed ranges tile
`[O₀, current_offset)` in file order, each covering one homogeneous run. -/

theorem bytesOf_append (l1 l2 : List (Nat × Int)) :
    bytesOf (l1 ++ l2) = bytesOf l1 + bytesOf l2 := by
  simp [bytesOf]

theorem dictInsert_of_not_mem {k : Int} {v : Nat × Nat} :
    ∀ {offs : List (Int × Nat × Nat)}, k ∉ dictKeys offs →
    dictInsert k v offs = offs ++ [(k, v.1, v.2)] := by
  intro offs
  induction offs with
  | nil => intro _; rfl
  | cons e rest ih =>
    intro h
    have he : e.1 ≠ k := by
      intro hcontra
      exact h (by simp [dictKeys, hcontra])
    have hrest : k ∉ dictKeys rest := by
      intro hcontra
      exact h (by simp [dictKeys] at hcontra ⊢; exact Or.inr hcontra)
    unfold dictInsert
    rw [if_neg he, ih hrest]
    rfl

theorem isChain_snoc {a e : Nat} {k : Int} :
    ∀ {l : List (Int × Nat × Nat)} {b : Nat}, isChain a b l →
    isChain a e (l ++ [(k, b, e)]) := by
  intro l
  induction l generalizing a with
  | nil =>
    intro b h
    exact ⟨h.symm, rfl⟩
  | cons r rest ih =>
    intro b h
    exact ⟨h.1, ih h.2⟩

theorem RangeOK_extend {O0 : Nat} {done : List (Nat × Int)}
    {r : Int × Nat × Nat} (h : RangeOK O0 done r) (more : List (Nat × Int)) :
    RangeOK O0 (done ++ more) r := by
  obtain ⟨pre, mid, post, hdone, hpre, hmid, hall⟩ := h
  exact ⟨pre, mid, post ++ more, by rw [hdone]; simp, hpre, hmid, hall⟩

theorem pureStep_same {st : ScanState} {len : Nat} {sid : Int}
    (h : st.currentSubject = some sid) :
    pureStep st len sid = { st with currentOffset := st.currentOffset + len } := by
  unfold pureStep
  rw [if_pos h]

theorem pureStep_new {st : ScanState} {len : Nat} {sid c : Int}
    (hc : st.currentSubject = some c) (hne : c ≠ sid) :
    pureStep st len sid =
      ⟨dictInsert c (st.subjectStart, st.currentOffset) st.offsets, some sid,
        st.currentOffset, st.currentOffset + len⟩ := by
  unfold pureStep
  rw [if_neg (by rw [hc]; simp [hne]), hc]

theorem pureStep_start {st : ScanState} {len : Nat} {sid : Int}
    (h : st.currentSubject = none) :
    pureStep st len sid =
      ⟨st.offsets, some sid, st.currentOffset, st.currentOffset + len⟩ := by
  unfold pureStep
  rw [if_neg (by rw [h]; simp), h]

theorem ScanInv.step {O0 : Nat} {done : List (Nat × Int)} {c : Int}
    {st : ScanState} (inv : ScanInv O0 done c st) (p : Nat × Int)
    (hle : c ≤ p.2) :
    ScanInv O0 (done ++ [p]) p.2 (pureStep st p.1 p.2) := by
  by_cases heq : c = p.2
  · subst heq
    rw [pureStep_same inv.cur]
    obtain ⟨pre, mid, hdone, hpre, hmid⟩ := inv.openRun
    refine ⟨inv.cur, ?_, ?_, inv.chain, ?_, inv.keysLt⟩
    · show st.currentOffset + p.1 = O0 + bytesOf (done ++ [p])
      rw [inv.off, bytesOf_append]
      simp [bytesOf]
      omega
    · refine ⟨pre, mid ++ [p], by rw [hdone, List.append_assoc], hpre, ?_⟩
      intro q hq
      rcases List.mem_append.mp hq with h | h
      · exact hmid q h
      · simp at h
        rw [h]
    · intro r hr
      exact RangeOK_extend (inv.ranges r hr) [p]
  · have hlt : c < p.2 := lt_of_le_of_ne hle heq
    rw [pureStep_new inv.cur heq]
    have hnot : c ∉ dictKeys st.offsets := by
      intro hmem
      exact absurd (inv.keysLt c hmem) (lt_irrefl c)
    rw [dictInsert_of_not_mem hnot]
    obtain ⟨pre, mid, hdone, hpre, hmid⟩ := inv.openRun
    have hoff : st.subjectStart + bytesOf mid = st.currentOffset := by
      have h1 := inv.off
      rw [hdone, bytesOf_append] at h1
      omega
    refine ⟨rfl, ?_, ?_, ?_, ?_, ?_⟩
    · show st.currentOffset + p.1 = O0 + bytesOf (done ++ [p])
      rw [inv.off, bytesOf_append]
      simp [bytesOf]
      omega
    · refine ⟨done, [p], rfl, inv.off.symm, ?_⟩
      intro q hq
      simp at hq
      rw [hq]
    · exact isChain_snoc inv.chain
    · intro r hr
      rcases List.mem_append.mp hr with h | h
      · exact RangeOK_extend (inv.ranges r h) [p]
      · simp at h
        subst h
        exact ⟨pre, mid, [p], by rw [hdone, List.append_assoc], hpre, hoff, hmid⟩
    · intro k hk
      simp [dictKeys] at hk
      rcases hk with hk | hk
      · exact lt_trans (inv.keysLt k (by simp [dictKeys, hk])) hlt
      · rw [hk]
        exact hlt

theorem pureScan_inv {O0 : Nat} :
    ∀ (rest : List (Nat × Int)) (done : List (Nat × Int)) (c : Int)
      (st : ScanState), ScanInv O0 done c st →
    List.Chain (fun a b => a ≤ b) c (sidsOf rest) →
    ScanInv O0 (done ++ rest) ((sidsOf rest).getLastD c) (pureScan st rest) := by
  intro rest
  induction rest with
  | nil =>
    intro done c st inv _
    simpa [pureScan, sidsOf] using inv
  | cons p ps ih =>
    intro done c st inv hchain
    have hsids : sidsOf (p :: ps) = p.2 :: sidsOf ps := rfl
    rw [hsids] at hchain
    rw [List.chain_cons] at hchain
    have inv' := inv.step p hchain.1
    have hres := ih (done ++ [p]) p.2 _ inv' hchain.2
    have h1 : (done ++ [p]) ++ ps = done ++ p :: ps := by simp
    have h2 : (sidsOf (p :: ps)).getLastD c = (sidsOf ps).getLastD p.2 := by
      rw [hsids, List.getLastD_cons]
    rw [h1] at hres
    rw [h2]
    exact hres

theorem scanInv_first (O0 : Nat) (p : Nat × Int) :
    ScanInv O0 [p] p.2 (pureStep ⟨[], none, O0, O0⟩ p.1 p.2) := by
  rw [pureStep_start rfl]
  refine ⟨rfl, ?_, ?_, rfl, ?_, ?_⟩
  · show O0 + p.1 = O0 + bytesOf [p]
    simp [bytesOf]
  · refine ⟨[], [p], rfl, by simp [bytesOf], ?_⟩
    intro q hq
    simp at hq
    rw [hq]
  · intro r hr
    simp at hr
  · intro k hk
    simp [dictKeys] at hk

theorem finalizeScan_correct {O0 : Nat} {ps : List (Nat × Int)} {c : Int}
    {st : ScanState} (inv : ScanInv O0 ps c st) :
    finalizeScan st ≠ [] ∧
    isChain O0 (O0 + bytesOf ps) (finalizeScan st) ∧
    ∀ r ∈ finalizeScan st, RangeOK O0 ps r := by
  have hnot : c ∉ dictKeys st.offsets := by
    intro hmem
    exact absurd (inv.keysLt c hmem) (lt_irrefl c)
  have hfin : finalizeScan st =
      st.offsets ++ [(c, st.subjectStart, st.currentOffset)] := by
    unfold finalizeScan
    rw [inv.cur]
    exact dictInsert_of_not_mem hnot
  obtain ⟨pre, mid, hdone, hpre, hmid⟩ := inv.openRun
  have hoff : st.subjectStart + bytesOf mid = st.currentOffset := by
    have h1 := inv.off
    rw [hdone, bytesOf_append] at h1
    omega
  refine ⟨by rw [hfin]; simp, ?_, ?_⟩
  · rw [hfin, ← inv.off]
    exact isChain_snoc inv.chain
  · intro r hr
    rw [hfin] at hr
    rcases List.mem_append.mp hr with h | h
    · exact inv.ranges r h
    · simp at h
      subst h
      exact ⟨pre, mid, [], by rw [hdone]; simp, hpre, hoff, hmid⟩

theorem scan_correct (O0 : Nat) {ps : List (Nat × Int)} (hne : ps ≠ [])
    (hmono : List.Chain' (fun a b => a ≤ b) (sidsOf ps)) :
    finalizeScan (pureScan ⟨[], none, O0, O0⟩ ps) ≠ [] ∧
    isChain O0 (O0 + bytesOf ps) (finalizeScan (pureScan ⟨[], none, O0, O0⟩ ps)) ∧
    ∀ r ∈ finalizeScan (pureScan ⟨[], none, O0, O0⟩ ps), RangeOK O0 ps r := by
  obtain ⟨p, ps', rfl⟩ := List.exists_cons_of_ne_nil hne
  have hchain : List.Chain (fun a b => a ≤ b) p.2 (sidsOf ps') := hmono
  have inv := pureScan_inv ps' [p] p.2 _ (scanInv_first O0 p) hchain
  have h1 : [p] ++ ps' = p :: ps' := rfl
  rw [h1] at inv
  exact finalizeScan_correct inv

/-! ## Relating the scan to parsed lines -/

theorem scanStep_parsed {colIdx : Nat} {st : ScanState} {line : String}
    {p : Nat × Int} (h : LineVal colIdx line p) :
    scanStep colIdx st line = some (pureStep st p.1 p.2) := by
  obtain ⟨hlen, hsid⟩ := h
  unfold scanStep
  cases hf : lineField colIdx line with
  | none =>
    unfold lineSid at hsid
    rw [hf] at hsid
    simp at hsid
  | some fld =>
    unfold lineSid at hsid
    rw [hf] at hsid
    simp only [Option.some_bind] at hsid
    simp only [hsid, hlen]

theorem scanLines_parsed {colIdx : Nat} :
    ∀ {lines : List String} {ps : List (Nat × Int)} (st : ScanState),
    Parsed colIdx lines ps →
    scanLines colIdx st lines = some (pureScan st ps) := by
  intro lines ps st h
  induction h generalizing st with
  | nil => rfl
  | @cons l q ls qs hlv hrest ih =>
    show scanLines colIdx st (l :: ls) = some (pureScan st (q :: qs))
    unfold scanLines
    rw [scanStep_parsed hlv]
    exact ih _

theorem Parsed.bytes {colIdx : Nat} {lines : List String}
    {ps : List (Nat × Int)} (h : Parsed colIdx lines ps) :
    (lines.map byteLen).sum = bytesOf ps := by
  induction h with
  | nil => rfl
  | @cons l q ls qs hlv hrest ih =>
    simp only [List.map, List.sum_cons]
    rw [ih, hlv.1]
    simp [bytesOf]

theorem Parsed.ne_nil {colIdx : Nat} {lines : List String}
    {ps : List (Nat × Int)} (h : Parsed colIdx lines ps)
    (hne : lines ≠ []) : ps ≠ [] := by
  cases h with
  | nil => exact absurd rfl hne
  | cons _ _ => simp

theorem LineVal.pos {colIdx : Nat} {line : String} {p : Nat × Int}
    (h : LineVal colIdx line p) : 1 ≤ p.1 := by
  obtain ⟨hlen, hsid⟩ := h
  rcases Nat.lt_or_ge p.1 1 with hlt | hge
  · exfalso
    have h0 : byteLen line = 0 := by omega
    have hempty : line = "" := (byteLen_eq_zero_iff line).mp h0
    subst hempty
    have hval : lineSid colIdx "" = none := by
      cases colIdx with
      | zero => rfl
      | succ n => rfl
    rw [hval] at hsid
    exact Option.noConfusion hsid
  · exact hge

theorem forall2_mem_left {α β : Type} {R : α → β → Prop} :
    ∀ {l : List α} {u : List β}, List.Forall₂ R l u → ∀ {a}, a ∈ l →
    ∃ b ∈ u, R a b := by
  intro l u h
  induction h with
  | nil => intro a ha; simp at ha
  | @cons x y xs ys hxy hrest ih =>
    intro a ha
    rcases List.mem_cons.mp ha with rfl | ha
    · exact ⟨y, by simp, hxy⟩
    · obtain ⟨b, hb, hab⟩ := ih ha
      exact ⟨b, by simp [hb], hab⟩

theorem forall2_get_left {α β : Type} {R : α → β → Prop} :
    ∀ {l : List α} {u : List β}, List.Forall₂ R l u → ∀ {i : Nat} {a},
    l.get? i = some a → ∃ b, u.get? i = some b ∧ R a b := by
  intro l u h
  induction h with
  | nil => intro i a ha; simp at ha
  | @cons x y xs ys hxy hrest ih =>
    intro i a ha
    cases i with
    | zero =>
      rw [List.get?_cons_zero] at ha
      obtain rfl : x = a := Option.some_injective _ ha
      exact ⟨y, rfl, hxy⟩
    | succ i =>
      rw [List.get?_cons_succ] at ha
      obtain ⟨b, hb, hab⟩ := ih ha
      exact ⟨b, by rw [List.get?_cons_succ]; exact hb, hab⟩

theorem forall2_split_right {α β : Type} {R : α → β → Prop} :
    ∀ {u1 : List β} {l : List α} {u2 : List β},
    List.Forall₂ R l (u1 ++ u2) →
    ∃ l1 l2, l = l1 ++ l2 ∧ List.Forall₂ R l1 u1 ∧ List.Forall₂ R l2 u2 := by
  intro u1
  induction u1 with
  | nil =>
    intro l u2 h
    exact ⟨[], l, rfl, List.Forall₂.nil, h⟩
  | cons b u1 ih =>
    intro l u2 h
    cases h with
    | @cons a _ l' _ hab hrest =>
      obtain ⟨l1, l2, rfl, h1, h2⟩ := ih hrest
      exact ⟨a :: l1, l2, rfl, List.Forall₂.cons hab h1, h2⟩

/-! ## Reading the partition facts out of a chain -/

theorem isChain_first {a b : Nat} {l : List (Int × Nat × Nat)}
    {r0 : Int × Nat × Nat} (h : isChain a b l) (h0 : l.get? 0 = some r0) :
    r0.2.1 = a := by
  cases l with
  | nil => simp at h0
  | cons r rest =>
    rw [List.get?_cons_zero] at h0
    obtain rfl : r = r0 := Option.some_injective _ h0
    exact h.1

theorem isChain_adj {b : Nat} :
    ∀ {l : List (Int × Nat × Nat)} {a : Nat} (i : Nat)
      {r1 r2 : Int × Nat × Nat}, isChain a b l →
    l.get? i = some r1 → l.get? (i + 1) = some r2 → r1.2.2 = r2.2.1 := by
  intro l
  induction l with
  | nil => intro a i r1 r2 _ h1 _; simp at h1
  | cons r rest ih =>
    intro a i r1 r2 h h1 h2
    cases i with
    | zero =>
      rw [List.get?_cons_zero] at h1
      obtain rfl : r = r1 := Option.some_injective _ h1
      rw [List.get?_cons_succ] at h2
      cases rest with
      | nil => simp at h2
      | cons r' rest' =>
        rw [List.get?_cons_zero] at h2
        obtain rfl : r' = r2 := Option.some_injective _ h2
        exact h.2.1.symm
    | succ i =>
      rw [List.get?_cons_succ] at h1 h2
      exact ih i h.2 h1 h2

theorem isChain_last {b : Nat} :
    ∀ {l : List (Int × Nat × Nat)} {a : Nat} (i : Nat)
      {r : Int × Nat × Nat}, isChain a b l →
    l.get? i = some r → l.get? (i + 1) = none → r.2.2 = b := by
  intro l
  induction l with
  | nil => intro a i r _ h1 _; simp at h1
  | cons r0 rest ih =>
    intro a i r h h1 h2
    cases i with
    | zero =>
      rw [List.get?_cons_zero] at h1
      obtain rfl : r0 = r := Option.some_injective _ h1
      rw [List.get?_cons_succ] at h2
      cases rest with
      | nil => exact h.2
      | cons r' rest' => simp at h2
    | succ i =>
      rw [List.get?_cons_succ] at h1 h2
      exact ih i h.2 h1 h2

theorem generate_offsets_parsed {f : DataFile} {sortCol : String} {idx : Nat}
    {ps : List (Nat × Int)}
    (hidx : colIdx? sortCol (headerCols f.header) = some idx)
    (hparsed : Parsed idx f.lines ps) :
    generate_offsets f sortCol = some (finalizeScan
      (pureScan ⟨[], none, byteLen f.header, byteLen f.header⟩ ps)) := by
  unfold generate_offsets
  simp only [hidx]
  rw [scanLines_parsed _ hparsed]
  rfl

/-- Claim C1: on a dataset whose sort-column values are monotonically
non-decreasing (each data line parses, and the parsed keys form a
non-decreasing chain), after a successful `generate_byte_index` the ranges
it records partition the data region exactly: the first recorded range
starts at the offset right after the header, each range ends exactly where
the next one (in file order) starts, and the last range ends at the total
uncompressed size of the file. -/
theorem generate_byte_index_partitions_data_region
    (f : DataFile) (sortCol fid : String) (t t' : Table) (idx : Nat)
    (ps : List (Nat × Int)) (ranges : List (Int × Nat × Nat))
    (hidx : colIdx? sortCol (headerCols f.header) = some idx)
    (hparsed : Parsed idx f.lines ps)
    (hne : f.lines ≠ [])
    (hmono : List.Chain' (fun a b => a ≤ b) (sidsOf ps))
    (hoffs : generate_offsets f sortCol = some ranges)
    (_hgen : generate_byte_index f sortCol fid t = some t') :
    ranges ≠ [] ∧
    (∀ r0, ranges.get? 0 = some r0 → r0.2.1 = byteLen f.header) ∧
    (∀ i r1 r2, ranges.get? i = some r1 → ranges.get? (i + 1) = some r2 →
      r1.2.2 = r2.2.1) ∧
    (∀ i r, ranges.get? i = some r → ranges.get? (i + 1) = none →
      r.2.2 = byteLen f.header + (f.lines.map byteLen).sum) := by
  have heq := generate_offsets_parsed hidx hparsed
  rw [hoffs] at heq
  obtain rfl : ranges = finalizeScan
      (pureScan ⟨[], none, byteLen f.header, byteLen f.header⟩ ps) :=
    Option.some_injective _ heq
  obtain ⟨hnil, hchain, _⟩ :=
    scan_correct (byteLen f.header) (hparsed.ne_nil hne) hmono
  rw [hparsed.bytes]
  exact ⟨hnil, fun r0 h0 => isChain_first hchain h0,
    fun i r1 r2 h1 h2 => isChain_adj i hchain h1 h2,
    fun i r h1 h2 => isChain_last i hchain h1 h2⟩

/-- Claim C1 (witness): instantiated on the scenario-E1 dataset `fE1`,
whose ranges are `[(10, 15, 25), (20, 25, 30)]`: the first starts at the
header size 15, range 0 ends where range 1 starts, and the last ends at
the total size 30. -/
theorem generate_byte_index_partitions_data_region_witness :
    rangesE1 ≠ [] ∧
    ((10, 15, 25) : Int × Nat × Nat).2.1 = byteLen fE1.header ∧
    ((10, 15, 25) : Int × Nat × Nat).2.2 = ((20, 25, 30) : Int × Nat × Nat).2.1 ∧
    ((20, 25, 30) : Int × Nat × Nat).2.2 =
      byteLen fE1.header + (fE1.lines.map byteLen).sum := by
  obtain ⟨h1, h2, h3, h4⟩ := generate_byte_index_partitions_data_region
    fE1 "subject_id" "mini" tE1 tE1' 0 psE1 rangesE1 rfl
    (List.Forall₂.cons ⟨rfl, rfl⟩
      (List.Forall₂.cons ⟨rfl, rfl⟩
        (List.Forall₂.cons ⟨rfl, rfl⟩ List.Forall₂.nil)))
    (by decide)
    (by rw [show sidsOf psE1 = [10, 10, 20] from rfl, List.chain'_cons,
          List.chain'_cons]
        exact ⟨le_refl 10, by omega, List.chain'_singleton 20⟩)
    rfl rfl
  exact ⟨h1, h2 (10, 15, 25) rfl, h3 0 (10, 15, 25) (20, 25, 30) rfl rfl,
    h4 1 (20, 25, 30) rfl rfl⟩

/-- Claim C5: on a dataset whose sort-column values are monotonically
non-decreasing, every range `(s, a, b)` the builder records is
key-homogeneous: every data line lying (by its byte offset) inside
`[a, b)` has sort-key value `s`. -/
theorem generate_byte_index_key_homogeneity
    (f : DataFile) (sortCol fid : String) (t t' : Table) (idx : Nat)
    (ps : List (Nat × Int)) (ranges : List (Int × Nat × Nat))
    (hidx : colIdx? sortCol (headerCols f.header) = some idx)
    (hparsed : Parsed idx f.lines ps)
    (hne : f.lines ≠ [])
    (hmono : List.Chain' (fun a b => a ≤ b) (sidsOf ps))
    (hoffs : generate_offsets f sortCol = some ranges)
    (_hgen : generate_byte_index f sortCol fid t = some t') :
    ∀ r ∈ ranges, ∀ i line, f.lines.get? i = some line →
      r.2.1 ≤ lineOffset (byteLen f.header) f.lines i →
      lineOffset (byteLen f.header) f.lines i < r.2.2 →
      lineSid idx line = some r.1 := by
  have heq := generate_offsets_parsed hidx hparsed
  rw [hoffs] at heq
  obtain rfl : ranges = finalizeScan
      (pureScan ⟨[], none, byteLen f.header, byteLen f.header⟩ ps) :=
    Option.some_injective _ heq
  obtain ⟨_, _, hranges⟩ :=
    scan_correct (byteLen f.header) (hparsed.ne_nil hne) hmono
  intro r hr i line hline hge hlt
  obtain ⟨pre', mid', post', hps, hpre, hmidb, hall⟩ := hranges r hr
  rw [hps] at hparsed
  obtain ⟨premid, post, hlines, hp12, hp3⟩ := forall2_split_right hparsed
  obtain ⟨pre, mid, hpm, hp1, hp2⟩ := forall2_split_right hp12
  subst hpm
  have hsum1 : (pre.map byteLen).sum = bytesOf pre' := Parsed.bytes hp1
  have hsum2 : (mid.map byteLen).sum = bytesOf mid' := Parsed.bytes hp2
  have hpospre : ∀ x ∈ pre, 1 ≤ byteLen x := by
    intro x hx
    obtain ⟨q, _, hlv⟩ := forall2_mem_left hp1 hx
    rw [hlv.1]
    exact hlv.pos
  have hlines' : f.lines = pre ++ (mid ++ post) := by
    rw [hlines, List.append_assoc]
  rcases Nat.lt_or_ge i pre.length with hcase1 | hge1
  · exfalso
    have htake : f.lines.take i = pre.take i := by
      rw [hlines', List.take_append_eq_append_take]
      have h0 : i - pre.length = 0 := by omega
      rw [h0]
      simp
    have hsplit : (pre.map byteLen).sum =
        ((pre.take i).map byteLen).sum + ((pre.drop i).map byteLen).sum := by
      conv_lhs => rw [← List.take_append_drop i pre]
      rw [List.map_append, List.sum_append]
    have hdroppos : 1 ≤ ((pre.drop i).map byteLen).sum := by
      cases hd : pre.drop i with
      | nil =>
        have := List.drop_eq_nil_iff_le.mp hd
        omega
      | cons x xs =>
        have hx : x ∈ pre := List.drop_subset i pre (by rw [hd]; simp)
        have hpos := hpospre x hx
        simp only [List.map, List.sum_cons]
        omega
    unfold lineOffset at hge
    rw [htake] at hge
    omega
  rcases Nat.lt_or_ge i (pre.length + mid.length) with hcase2 | hge2
  · have hmidget : mid.get? (i - pre.length) = some line := by
      rw [hlines'] at hline
      rw [List.get?_append_right (by omega)] at hline
      rw [List.get?_append (by omega)] at hline
      exact hline
    obtain ⟨q, hq, hlv⟩ := forall2_get_left hp2 hmidget
    have hqmem : q ∈ mid' := List.get?_mem hq
    have hq2 : q.2 = r.1 := hall q hqmem
    rw [hlv.2, hq2]
  · exfalso
    have htake : f.lines.take i =
        (pre ++ mid) ++ post.take (i - (pre.length + mid.length)) := by
      rw [hlines, List.take_append_eq_append_take]
      congr 1
      · exact List.take_of_length_le (by simp; omega)
      · congr 1
        simp
    have hsplit : ((f.lines.take i).map byteLen).sum =
        (pre.map byteLen).sum + (mid.map byteLen).sum +
          ((post.take (i - (pre.length + mid.length))).map byteLen).sum := by
      rw [htake]
      simp [List.sum_append]
      omega
    unfold lineOffset at hlt
    omega

/-- Claim C5 (witness): on `fE1`, the data lines whose offsets fall in
range `(10, 15, 25)` (respectively `(20, 25, 30)`) indeed carry sort key
10 (respectively 20). -/
theorem generate_byte_index_key_homogeneity_witness :
    lineSid 0 "10,a\n" = some 10 ∧ lineSid 0 "20,c\n" = some 20 := by
  have h := generate_byte_index_key_homogeneity
    fE1 "subject_id" "mini" tE1 tE1' 0 psE1 rangesE1 rfl
    (List.Forall₂.cons ⟨rfl, rfl⟩
      (List.Forall₂.cons ⟨rfl, rfl⟩
        (List.Forall₂.cons ⟨rfl, rfl⟩ List.Forall₂.nil)))
    (by decide)
    (by rw [show sidsOf psE1 = [10, 10, 20] from rfl, List.chain'_cons,
          List.chain'_cons]
        exact ⟨le_refl 10, by omega, List.chain'_singleton 20⟩)
    rfl rfl
  exact ⟨h (10, 15, 25) (by decide) 0 "10,a\n" rfl (by decide) (by decide),
    h (20, 25, 30) (by decide) 2 "20,c\n" rfl (by decide) (by decide)⟩

end Mimic
